import Mathlib

/-!
Verification of the report-site dashboard core (data normalization,
aggregation and period comparison) against its specification.

The TypeScript source (src/unnamed/part_000 and src/src/App.tsx) is shallowly
embedded below.  JavaScript numbers are modelled as exact rationals (ℚ); the
special value NaN (and the non-finite infinities) are modelled by `none` in
`Option ℚ` where a computation can produce them.  JavaScript strings are
modelled as `List Char`.  Source identifiers are Chinese; each Lean name
carries a comment giving the original name.
-/

/-- JS `\s` whitespace class (the characters relevant to this code base). -/
def isWsChar (c : Char) : Bool :=
  c = ' ' || c = '\t' || c = '\n' || c = '\r' ||
  c.toNat = 11 || c.toNat = 12 || c.toNat = 0xA0 || c.toNat = 0x3000 || c.toNat = 0xFEFF

/-- `String.prototype.trim`. -/
def jsTrim (s : List Char) : List Char :=
  ((s.dropWhile isWsChar).reverse.dropWhile isWsChar).reverse

/-- `String.prototype.includes` (contiguous substring, case sensitive). -/
def strIncludes (hay sub : List Char) : Bool :=
  (List.range (hay.length + 1)).any (fun i => ((hay.drop i).take sub.length) == sub)

/-- `String.prototype.endsWith`. -/
def strEndsWith (s pat : List Char) : Bool :=
  (s.reverse.take pat.length) == pat.reverse

/-- `String.prototype.replace` with a plain (non-global) pattern: remove the
first occurrence of character `c`. -/
def removeFirst (c : Char) : List Char → List Char
  | [] => []
  | a :: r => if a = c then r else a :: removeFirst c r

/-- Decimal value of a list of digit characters. -/
def natOfDigits (ds : List Char) : ℕ :=
  ds.foldl (fun n c => n * 10 + (c.toNat - 48)) 0

/-- Exponent part of `parseFloat` (`e`/`E` already consumed): an optional sign
followed by digits; a malformed exponent is ignored (contributes 0). -/
def expVal (r : List Char) : ℤ :=
  let es : ℤ := match r with
    | '-' :: _ => -1
    | _ => 1
  let r2 : List Char := match r with
    | '-' :: t => t
    | '+' :: t => t
    | _ => r
  let ds := r2.takeWhile Char.isDigit
  if ds.isEmpty then 0 else es * natOfDigits ds

/-- JS `parseFloat`: skip leading whitespace, optional sign, digits with an
optional fraction and exponent; parsing stops at the first invalid character;
`none` models NaN (no digit found).  The `Infinity` literal, which no string
fed to this parser by the embedded code contains, is not modelled. -/
def parseFloatQ (s0 : List Char) : Option ℚ :=
  let s1 := s0.dropWhile isWsChar
  let sgn : ℚ := match s1 with
    | '-' :: _ => -1
    | _ => 1
  let s2 : List Char := match s1 with
    | '-' :: t => t
    | '+' :: t => t
    | _ => s1
  let ip := s2.takeWhile Char.isDigit
  let s3 := s2.dropWhile Char.isDigit
  let fp : List Char := match s3 with
    | '.' :: r => r.takeWhile Char.isDigit
    | _ => []
  let s4 : List Char := match s3 with
    | '.' :: r => r.dropWhile Char.isDigit
    | _ => s3
  if ip.isEmpty && fp.isEmpty then none
  else
    let mant : ℚ := (natOfDigits ip : ℚ) + (natOfDigits fp : ℚ) / (10 : ℚ) ^ fp.length
    let ex : ℤ := match s4 with
      | 'e' :: r => expVal r
      | 'E' :: r => expVal r
      | _ => 0
    some (sgn * mant * (10 : ℚ) ^ ex)

/-- Hexadecimal digit value. -/
def hexDigitVal (c : Char) : Option ℕ :=
  if c.isDigit then some (c.toNat - 48)
  else if 'a' ≤ c ∧ c ≤ 'f' then some (c.toNat - 87)
  else if 'A' ≤ c ∧ c ≤ 'F' then some (c.toNat - 55)
  else none

/-- Digits of a non-decimal radix literal; `none` if empty or invalid. -/
def radixVal (base : ℕ) (dv : Char → Option ℕ) (ds : List Char) : Option ℕ :=
  if ds.isEmpty then none
  else ds.foldl (fun acc c => acc.bind fun n => (dv c).bind fun d =>
         if d < base then some (n * base + d) else none) (some 0)

/-- Strict decimal grammar of JS `Number(...)` without the sign: digits with
optional fraction and exponent, consuming the whole string. -/
def jsNumberDec (s : List Char) : Option ℚ :=
  let ip := s.takeWhile Char.isDigit
  let s1 := s.dropWhile Char.isDigit
  let fp : List Char := match s1 with
    | '.' :: r => r.takeWhile Char.isDigit
    | _ => []
  let s2 : List Char := match s1 with
    | '.' :: r => r.dropWhile Char.isDigit
    | _ => s1
  if ip.isEmpty && fp.isEmpty then none
  else
    let mant : ℚ := (natOfDigits ip : ℚ) + (natOfDigits fp : ℚ) / (10 : ℚ) ^ fp.length
    match s2 with
    | [] => some mant
    | 'e' :: r =>
        let es : ℤ := match r with
          | '-' :: _ => -1
          | _ => 1
        let r2 : List Char := match r with
          | '-' :: t => t
          | '+' :: t => t
          | _ => r
        if r2.isEmpty || !(r2.all Char.isDigit) then none
        else some (mant * (10 : ℚ) ^ (es * natOfDigits r2))
    | 'E' :: r =>
        let es : ℤ := match r with
          | '-' :: _ => -1
          | _ => 1
        let r2 : List Char := match r with
          | '-' :: t => t
          | '+' :: t => t
          | _ => r
        if r2.isEmpty || !(r2.all Char.isDigit) then none
        else some (mant * (10 : ℚ) ^ (es * natOfDigits r2))
    | _ => none

/-- The characters of the `Infinity` literal. -/
def infinityChars : List Char := ("Infinity").data

/-- JS `Number(string)`: trims, empty string is 0, supports an optional sign,
strict decimal syntax and `0x`/`0o`/`0b` radix literals.  `none` models a
non-finite result (NaN, and the `Infinity` literal, which `Number.isFinite`
rejects in every use below). -/
def jsNumberQ (s0 : List Char) : Option ℚ :=
  let t := jsTrim s0
  if t.isEmpty then some 0
  else match t with
    | '0' :: 'x' :: ds => (radixVal 16 hexDigitVal ds).map (fun n => (n : ℚ))
    | '0' :: 'X' :: ds => (radixVal 16 hexDigitVal ds).map (fun n => (n : ℚ))
    | '0' :: 'o' :: ds =>
        (radixVal 8 (fun c => if c.isDigit ∧ c.toNat < 56 then some (c.toNat - 48) else none) ds).map
          (fun n => (n : ℚ))
    | '0' :: 'b' :: ds =>
        (radixVal 2 (fun c => if c = '0' then some 0 else if c = '1' then some 1 else none) ds).map
          (fun n => (n : ℚ))
    | '-' :: r => if r = infinityChars then none else (jsNumberDec r).map (fun q => -q)
    | '+' :: r => if r = infinityChars then none else jsNumberDec r
    | _ => if t = infinityChars then none else jsNumberDec t

/-- Fraction digits of the decimal expansion of `n/d`, fuel-bounded. -/
def fracDigits : ℕ → ℕ → ℕ → List Char
  | 0, _, _ => []
  | _, 0, _ => []
  | fuel + 1, n, d =>
      Nat.digitChar (n * 10 / d) :: fracDigits fuel (n * 10 % d) d

/-- JS `String(number)` (decimal rendering; used only for display strings and
stringified numeric record fields, never compared against by the claims). -/
def numToString (q : ℚ) : List Char :=
  let sgn : List Char := if q < 0 then ['-'] else []
  let a := |q|
  let ip := (⌊a⌋).toNat
  let fr := a - (⌊a⌋ : ℚ)
  sgn ++ (Nat.repr ip).data ++
    (if fr = 0 then [] else '.' :: fracDigits 40 fr.num.toNat fr.den)

/-- A JavaScript scalar as it appears in a raw ingested record. -/
inductive JSVal where
  | vstr : List Char → JSVal
  | vnum : ℚ → JSVal
  | vnull : JSVal
  | vundefined : JSVal
deriving DecidableEq, Inhabited

/-- `v == null` (nullish: null or undefined). -/
def jsNullish : JSVal → Bool
  | .vnull => true
  | .vundefined => true
  | _ => false

/-- The `??` operator. -/
def jsCoalesce (a b : JSVal) : JSVal := if jsNullish a then b else a

/-- JS `String(v)`. -/
def jsToString : JSVal → List Char
  | .vstr s => s
  | .vnum q => numToString q
  | .vnull => ("null").data
  | .vundefined => ("undefined").data

/-- JS falsiness (`!v`). -/
def jsFalsy : JSVal → Bool
  | .vstr s => s.isEmpty
  | .vnum q => q == 0
  | .vnull => true
  | .vundefined => true

/-- `num` (part_000 lines 32–36): the ingestion coercion.  Strips commas,
whitespace and percent signs globally from `String(v)`, then converts with
`Number`; a non-finite result gives 0.  For a numeric `v`, `String(v)`
contains none of the stripped characters and `Number(String(v))` round-trips
to `v` exactly for every JS number, so that branch is the identity. -/
def num (v : JSVal) : ℚ :=
  match v with
  | .vnull => 0
  | .vundefined => 0
  | .vstr [] => 0
  | .vnum q => q
  | .vstr s =>
    (jsNumberQ (s.filter (fun c => !(c = ',' || isWsChar c || c = '%')))).getD 0

/-- `coerceNumber` (App lines 246–260): the sortable-value coercion.
`some q` is a finite number, `none` is NaN (the percent branch has no
finiteness guard). -/
def coerceNumber (v : JSVal) : Option ℚ :=
  match v with
  | .vnum q => some q
  | .vnull => some 0
  | .vundefined => some 0
  | .vstr s0 =>
    let s := jsTrim (s0.filter (fun c => c ≠ ','))
    if strEndsWith s ['%'] then
      (parseFloatQ (removeFirst '%' s)).map (fun q => q / 100)
    else
      let mult : ℚ :=
        if strIncludes s ['億'] then 10 ^ 8
        else if strIncludes s ['百', '萬'] then 10 ^ 6
        else if strIncludes s ['萬'] then 10 ^ 4
        else 1
      match parseFloatQ (s.filter (fun c => c.isDigit || c = '.' || c = '-')) with
      | some n => some (n * mult)
      | none => some 0

/-- The configurable unit-suffix table of spec §4.1: a "hundred-million"
multiplier (億, ×10⁸), a "million" multiplier (百萬, ×10⁶) and a
"ten-thousand" multiplier (萬, ×10⁴). -/
def unitTable : List (List Char × ℚ) :=
  [(['億'], 10 ^ 8), (['百', '萬'], 10 ^ 6), (['萬'], 10 ^ 4)]

/-- Modelled from the spec (§4.1, amended): strip thousands separators and
surrounding whitespace; a string ending in a percent sign yields its parsed
numeric portion divided by 100 (NaN when that portion is unparsable);
otherwise the first unit token of the unit-suffix table contained in the
string multiplies the numeric portion, which is parsed after stripping all
characters other than digits, sign and decimal point; unparsable gives 0;
an already numeric input is returned unchanged; null/undefined give 0. -/
def coerceSpec (v : JSVal) : Option ℚ :=
  match v with
  | .vnum q => some q
  | .vnull => some 0
  | .vundefined => some 0
  | .vstr s0 =>
    let s := jsTrim (s0.filter (fun c => c ≠ ','))
    if strEndsWith s ['%'] then
      (parseFloatQ (removeFirst '%' s)).map (fun q => q / 100)
    else
      let mult : ℚ := (((unitTable.find? (fun u => strIncludes s u.1)).map (·.2)).getD 1)
      match parseFloatQ (s.filter (fun c => c.isDigit || c = '.' || c = '-')) with
      | some n => some (n * mult)
      | none => some 0

/-- Modelled from the spec (§4.1, amended): the ingestion coercion strips
commas, whitespace and percent signs from the stringified value and converts
the remainder with `Number` semantics; null, undefined, the empty string and
any non-finite conversion give 0.  No percent division and no unit
multiplication are applied. -/
def numSpec (v : JSVal) : ℚ :=
  match v with
  | .vnull => 0
  | .vundefined => 0
  | .vstr [] => 0
  | .vnum q => q
  | .vstr s =>
    (jsNumberQ (s.filter (fun c => !(c = ',' || isWsChar c || c = '%')))).getD 0

/-- `String(Number(ds)).padStart(2, "0")` for the 1–2 digit month capture. -/
def pad2 (n : ℕ) : List Char :=
  if n < 10 then '0' :: (Nat.repr n).data else (Nat.repr n).data

/-- Separator class (dash, slash, dot, 年) of the month regex. -/
def isM1Sep (c : Char) : Bool := c = '-' || c = '/' || c = '.' || c = '年'

/-- Greedy `\d{1,2}` at the head of the list. -/
def grab12 : List Char → Option ℕ
  | [] => none
  | [a] => if a.isDigit then some (natOfDigits [a]) else none
  | a :: b :: _ =>
      if a.isDigit then
        some (if b.isDigit then natOfDigits [a, b] else natOfDigits [a])
      else none

/-- One attempt of the year-month regex (literal `20`, two digits, an
optional separator, then one or two digits) at the current position.
If the optional separator is present but no digit follows it, regex
backtracking retries without the separator, which then also fails because the
separator character is not a digit; `grab12` returning `none` in both cases
models this. -/
def matchM1At (t : List Char) : Option (List Char × ℕ) :=
  match t with
  | '2' :: '0' :: c :: d :: rest =>
      if c.isDigit && d.isDigit then
        let m : Option ℕ := match rest with
          | s :: r2 => if isM1Sep s then grab12 r2 else grab12 rest
          | [] => none
        match m with
        | some mv => some (['2', '0', c, d], mv)
        | none => none
      else none
  | _ => none

/-- Leftmost match of the year-month pattern. -/
def findM1 : List Char → Option (List Char × ℕ)
  | [] => none
  | c :: rest =>
      match matchM1At (c :: rest) with
      | some r => some r
      | none => findM1 rest

/-- `\s*月` at the head of the list. -/
def wsYue (l : List Char) : Bool :=
  match l.dropWhile isWsChar with
  | '月' :: _ => true
  | _ => false

/-- One attempt of `/(\d{1,2})\s*月/` at the current position.  When two
digits are available but `\s*月` fails after them, backtracking to one digit
cannot succeed (the second digit is neither whitespace nor 月), so no
separate backtracking case is needed. -/
def matchM2At : List Char → Option ℕ
  | [] => none
  | [_] => none
  | a :: b :: rest =>
      if a.isDigit then
        if b.isDigit then
          if wsYue rest then some (natOfDigits [a, b]) else none
        else
          if wsYue (b :: rest) then some (natOfDigits [a]) else none
      else none

/-- Leftmost match of the bare-month pattern. -/
def findM2 : List Char → Option ℕ
  | [] => none
  | c :: rest =>
      match matchM2At (c :: rest) with
      | some r => some r
      | none => findM2 rest

/-- `normalizeMonth` (part_000 lines 90–106).  `currentYear` models
`new Date().getFullYear()`. -/
def normalizeMonth (currentYear : ℕ) (v : JSVal) : Option (List Char) :=
  if jsFalsy v then none
  else
    let t := jsTrim (jsToString v)
    match findM1 t with
    | some (y, m) => some (y ++ '-' :: pad2 m)
    | none =>
      match findM2 t with
      | some m => some ((Nat.repr currentYear).data ++ '-' :: pad2 m)
      | none => none

/-- The canonical Row.  Field names translate the source's Chinese ones:
month = 月份, agent = 代理商, merchant = 商戶, openAmt = 開分量,
revenue = 營業額, ratio = 比率; the four extras are pass-through fields. -/
structure Row where
  month : Option (List Char)
  agent : List Char
  merchant : List Char
  openAmt : ℚ
  revenue : ℚ
  ratio : ℚ
  machines : JSVal
  note : JSVal
  low25 : JSVal
  hours : JSVal
deriving DecidableEq, Inhabited

/-- A raw ingested record: arbitrary string keys to scalars; a missing key
reads as `undefined`. -/
def Rec := List (List Char × JSVal)

/-- Property read `r[k]`. -/
def jsGet (r : Rec) (k : List Char) : JSVal :=
  match r.find? (fun p => p.1 == k) with
  | some p => p.2
  | none => .vundefined

/-- `r[k1] ?? r[k2] ?? … ?? dflt`. -/
def pick (r : Rec) (ks : List (List Char)) (dflt : JSVal) : JSVal :=
  match ks with
  | [] => dflt
  | k :: rest => jsCoalesce (jsGet r k) (pick r rest dflt)

def kAgent1 : List Char := ("代理商").data
def kAgent2 : List Char := ("代理").data
def kAgent3 : List Char := ("Agent").data
def kStore1 : List Char := ("商戶").data
def kStore2 : List Char := ("Store").data
def kOpen1 : List Char := ("開分量").data
def kOpen2 : List Char := ("開分").data
def kOpen3 : List Char := ("Open").data
def kRev1 : List Char := ("營業額").data
def kRev2 : List Char := ("Revenue").data
def kRev3 : List Char := ("Sales").data
def kRatio1 : List Char := ("營業額/開分量").data
def kRatio2 : List Char := ("營業額/開分量百分比").data
def kRatio3 : List Char := ("Revenue/Open").data
def kRatio4 : List Char := ("ROI").data
def kMonth1 : List Char := ("月份").data
def kMonth2 : List Char := ("月").data
def kMonth3 : List Char := ("Month").data
def kMonth4 : List Char := ("日期").data
def kMonth5 : List Char := ("Date").data
def kMach1 : List Char := ("機台數量").data
def kMach2 : List Char := ("機台").data
def kMach3 : List Char := ("Machines").data
def kNote1 : List Char := ("備註").data
def kNote2 : List Char := ("Remark").data
def kNote3 : List Char := ("Note").data
def kLow1 : List Char := ("開分量低於25%").data
def kLow2 : List Char := ("低於25%").data
def kHours1 : List Char := ("營業時間").data
def kHours2 : List Char := ("Hours").data

/-- The raw ratio source of `toRow`:
`String(r["營業額/開分量"] ?? r["營業額/開分量百分比"] ?? r["Revenue/Open"] ?? r["ROI"] ?? "")`. -/
def ratioSrcRaw (r : Rec) : List Char :=
  jsToString (pick r [kRatio1, kRatio2, kRatio3, kRatio4] (.vstr []))

/-- `toRow` (part_000 lines 45–65): raw record to canonical Row. -/
def toRow (currentYear : ℕ) (r : Rec) (batchMonth : List Char) : Row :=
  let agent := jsTrim (jsToString (pick r [kAgent1, kAgent2, kAgent3] (.vstr [])))
  let store := jsTrim (jsToString (pick r [kStore1, kStore2] (.vstr [])))
  let openv := num (pick r [kOpen1, kOpen2, kOpen3] .vundefined)
  let rev := num (pick r [kRev1, kRev2, kRev3] .vundefined)
  let raw := ratioSrcRaw r
  let ratio :=
    if raw.isEmpty then (if 0 < openv then rev / openv else 0)
    else if strIncludes raw ['%'] then num (.vstr raw) / 100
    else num (.vstr raw)
  let m := normalizeMonth currentYear
    (pick r [kMonth1, kMonth2, kMonth3, kMonth4, kMonth5] (.vstr batchMonth))
  { month := m, agent := agent, merchant := store, openAmt := openv,
    revenue := rev, ratio := ratio,
    machines := pick r [kMach1, kMach2, kMach3] .vundefined,
    note := pick r [kNote1, kNote2, kNote3] .vundefined,
    low25 := pick r [kLow1, kLow2] .vundefined,
    hours := pick r [kHours1, kHours2] .vundefined }

/-- The identity filter `x => x.代理商 && x.商戶` applied on every ingestion
path. -/
def keepIdent (x : Row) : Bool := !x.agent.isEmpty && !x.merchant.isEmpty

/-- One parsed batch: map each raw record through `toRow` and drop rows with
an empty agent or merchant (`.map(toRow).filter(x => x.代理商 && x.商戶)`). -/
def parseRecords (currentYear : ℕ) (recs : List Rec) (batchMonth : List Char) : List Row :=
  (recs.map (fun r => toRow currentYear r batchMonth)).filter keepIdent

def unspecifiedMonth : List Char := ("未指定").data

/-- Month back-fill of `onFiles`:
`月份: r.月份 ?? normalizeMonth(batchMonth) ?? "未指定"`. -/
def backfillMonth (currentYear : ℕ) (batchMonth : List Char) (r : Row) : Row :=
  { r with month :=
      (r.month.or ((normalizeMonth currentYear (.vstr batchMonth)).or (some unspecifiedMonth))) }

/-- The merge step of `onFiles` (part_000 lines 378–384): back-fill months,
then either append to the existing dataset or replace it. -/
def mergeRows (existing incoming : List Row) (appendMode : Bool)
    (currentYear : ℕ) (batchMonth : List Char) : List Row :=
  let merged := incoming.map (backfillMonth currentYear batchMonth)
  if appendMode then existing ++ merged else merged

/-- The separator class of the token split `/[,\s]+/`. -/
def isSepChar (c : Char) : Bool := c = ',' || isWsChar c

/-- Length bound for `dropWhile`, used for termination. -/
theorem length_dropWhile_le' (p : Char → Bool) (l : List Char) :
    (l.dropWhile p).length ≤ l.length := by
  induction l with
  | nil => simp [List.dropWhile]
  | cons a t ih =>
      by_cases h : p a
      · simpa [List.dropWhile, h] using Nat.le_succ_of_le ih
      · simp [List.dropWhile, h]

/-- `String.prototype.split(/[,\s]+/)`: a maximal run of separators is one
split point; a leading or trailing run produces an empty token. -/
def jsSplitTokens (cur : List Char) (s : List Char) : List (List Char) :=
  match s with
  | [] => [cur.reverse]
  | c :: rest =>
      if isSepChar c then cur.reverse :: jsSplitTokens [] (rest.dropWhile isSepChar)
      else jsSplitTokens (c :: cur) rest
termination_by s.length
decreasing_by
  · exact Nat.lt_succ_of_le (length_dropWhile_le' _ _)
  · simp

/-- `excludeTokens` (part_000 lines 297–304): split the free-text input on
commas/whitespace, trim, drop empties. -/
def excludeTokens (input : List Char) : List (List Char) :=
  ((jsSplitTokens [] input).map jsTrim).filter (fun s => !s.isEmpty)

/-- `passExclude` (part_000 lines 307–312): a row passes unless some token is
contained in its agent field. -/
def passExclude (toks : List (List Char)) (r : Row) : Bool :=
  toks.isEmpty || !(toks.any (fun t => strIncludes r.agent t))

/-- The exclusion stage of the `filtered` pipeline (part_000 line 413):
`if (excludeTokens.length) d = d.filter(passExclude)`. -/
def applyExclude (input : List Char) (d : List Row) : List Row :=
  let toks := excludeTokens input
  if toks.isEmpty then d else d.filter (passExclude toks)

/-- `(x).toFixed(2)` read back as a number: round to 2 decimals, ties towards
the larger value (the ECMAScript `toFixed` tie rule). -/
def toFixed2 (q : ℚ) : ℚ := (⌊q * 100 + 1 / 2⌋ : ℚ) / 100

/-- `(x).toFixed(10)` read back as a number. -/
def toFixed10 (q : ℚ) : ℚ := (⌊q * 10 ^ 10 + 1 / 2⌋ : ℚ) / 10 ^ 10

/-- `(x).toFixed(0)` read back as a number (display labels only). -/
def toFixed0 (q : ℚ) : ℚ := (⌊q + 1 / 2⌋ : ℚ)

/-- Stable insertion of `a` into `l`: `a` goes before the first element `b`
with `le a b`. -/
def insertBy {α : Type} (le : α → α → Bool) (a : α) : List α → List α
  | [] => [a]
  | b :: bs => if le a b then a :: b :: bs else b :: insertBy le a bs

/-- A stable comparison sort, modelling `Array.prototype.sort(cmp)` (which is
required to be stable; for a consistent comparator any stable sort produces
the same list). -/
def sortBy {α : Type} (le : α → α → Bool) (l : List α) : List α :=
  l.foldr (insertBy le) []

/-- `m.set(k, (m.get(k) ?? 0) + v)` on a JS `Map` kept as an insertion-ordered
association list: accumulate into an existing entry in place, else append. -/
def addToMap (m : List (List Char × ℚ)) (k : List Char) (v : ℚ) :
    List (List Char × ℚ) :=
  match m with
  | [] => [(k, v)]
  | (k0, v0) :: rest =>
      if k0 = k then (k0, v0 + v) :: rest else (k0, v0) :: addToMap rest k v

/-- One point of the Pareto view: 商戶, summed 開分量, 累積比例. -/
structure ParetoPoint where
  merchant : List Char
  openAmt : ℚ
  cumShare : ℚ
deriving DecidableEq, Inhabited

/-- Per-merchant open-amount sums of `useParetoByMerchant`, in first-insertion
order. -/
def paretoSums (rows : List Row) : List (List Char × ℚ) :=
  rows.foldl (fun m r => addToMap m r.merchant r.openAmt) []

/-- The sums sorted descending by value (`.sort((a,b) => b.開分量 - a.開分量)`;
`Array.prototype.sort` is stable, as is `mergeSort`). -/
def paretoList (rows : List Row) : List (List Char × ℚ) :=
  sortBy (fun a b => decide (b.2 ≤ a.2)) (paretoSums rows)

/-- `list.reduce((s,d) => s + d.開分量, 0)`. -/
def paretoTotal (rows : List Row) : ℚ :=
  (paretoList rows).foldl (fun s d => s + d.2) 0

/-- The running cumulative-share pass
(`累積比例: +(((cum += d.開分量)/total*100).toFixed(2))`). -/
def cumShares (total : ℚ) : ℚ → List (List Char × ℚ) → List ParetoPoint
  | _, [] => []
  | cum, (k, v) :: rest =>
      ⟨k, v, toFixed2 ((cum + v) / total * 100)⟩ :: cumShares total (cum + v) rest

/-- `useParetoByMerchant` (part_000 lines 119–127).  `total || 1` floors a
zero total to 1. -/
def useParetoByMerchant (rows : List Row) : List ParetoPoint :=
  let total0 := paretoTotal rows
  let total := if total0 = 0 then 1 else total0
  cumShares total 0 (paretoList rows)

/-- One histogram bin: 區間 label, 數量 count, `_a`/`_b` bounds. -/
structure HistBin where
  label : List Char
  count : ℕ
  lower : ℚ
  upper : ℚ
deriving DecidableEq, Inhabited

/-- `Math.min(...xs)` over a non-empty list (the empty case never arises). -/
def listMinQ : List ℚ → ℚ
  | [] => 0
  | x :: xs => xs.foldl min x

/-- `Math.max(...xs)` over a non-empty list. -/
def listMaxQ : List ℚ → ℚ
  | [] => 0
  | x :: xs => xs.foldl max x

/-- `toStep(x, f) = f(x/step)*step`. -/
def toStepQ (step x : ℚ) (f : ℚ → ℤ) : ℚ := (f (x / step) : ℚ) * step

/-- The bin label `${(a*100).toFixed(0)}%~${(b*100).toFixed(0)}%`. -/
def binLabel (a b : ℚ) : List Char :=
  numToString (toFixed0 (a * 100)) ++ '%' :: '~' :: numToString (toFixed0 (b * 100)) ++ ['%']

/-- A fresh bin at lower bound `a` (`_b` is `+(a + step).toFixed(10)`). -/
def mkBin (step a : ℚ) : HistBin :=
  let b := toFixed10 (a + step)
  ⟨binLabel a b, 0, a, b⟩

/-- The bin-building loop `for (let a = lo; a < hi; a += step)`, fuelled; the
fuel chosen in `useRatioHistogram` exceeds the exact iteration count. -/
def buildBins (step hi : ℚ) : ℕ → ℚ → List HistBin
  | 0, _ => []
  | fuel + 1, a =>
      if a < hi then mkBin step a :: buildBins step hi fuel (a + step) else []

/-- `bins[idx].數量++`. -/
def incBin : List HistBin → ℕ → List HistBin
  | [], _ => []
  | b :: bs, 0 => { b with count := b.count + 1 } :: bs
  | b :: bs, n + 1 => b :: incBin bs n

/-- The clamped bin index:
`Math.max(0, Math.min(bins.length-1, Math.floor((min(x, hi-1e-12) - lo)/step)))`. -/
def binIdx (lo hi step : ℚ) (len : ℕ) (x : ℚ) : ℕ :=
  let xc := min x (hi - 1 / 10 ^ 12)
  (max 0 (min ((len : ℤ) - 1) ⌊(xc - lo) / step⌋)).toNat

/-- `useRatioHistogram` (part_000 lines 129–151).  The `Number.isFinite`
guards on min/max are vacuous over ℚ and omitted. -/
def useRatioHistogram (rows : List Row) (step : ℚ) : List HistBin :=
  if rows.isEmpty then []
  else
    let ratios := rows.map (·.ratio)
    let mn := listMinQ ratios
    let mx := listMaxQ ratios
    let lo := toStepQ step (mn - step) Int.floor
    let hi := toStepQ step (mx + step) Int.ceil
    let fuel := (⌈(hi - lo) / step⌉).toNat + 1
    let bins := buildBins step hi fuel lo
    rows.foldl (fun bs r => incBin bs (binIdx lo hi step bs.length r.ratio)) bins

/-- The join-key selector: 代理商+商戶 composite or 商戶 alone. -/
inductive KeyJoin where
  | agentMerchant : KeyJoin
  | merchantOnly : KeyJoin
deriving DecidableEq

/-- `keyFn`: `商戶` or `` `${代理商}__${商戶}` ``. -/
def keyFn (kj : KeyJoin) (r : Row) : List Char :=
  match kj with
  | .merchantOnly => r.merchant
  | .agentMerchant => r.agent ++ '_' :: '_' :: r.merchant

/-- One row of the comparison table.  Fields translate the source's dynamic
keys: openA/openB = `開分量@月`, dOpen = `Δ開分量`, revA/revB = `營業額@月`,
dRev = `Δ營業額`, ratioA/ratioB = `比率@月`, dRatio = `Δ比率`. -/
structure CompareRow where
  agent : List Char
  merchant : List Char
  openA : ℚ
  openB : ℚ
  dOpen : ℚ
  revA : ℚ
  revB : ℚ
  dRev : ℚ
  ratioA : ℚ
  ratioB : ℚ
  dRatio : ℚ
deriving DecidableEq, Inhabited

/-- `Map.set` on an insertion-ordered association list: overwrite in place,
else append (later rows with the same key overwrite earlier ones). -/
def mapSet (m : List (List Char × Row)) (k : List Char) (v : Row) :
    List (List Char × Row) :=
  match m with
  | [] => [(k, v)]
  | (k0, v0) :: rest =>
      if k0 = k then (k0, v) :: rest else (k0, v0) :: mapSet rest k v

/-- `Map.get`. -/
def mapGet (m : List (List Char × Row)) (k : List Char) : Option Row :=
  match m with
  | [] => none
  | (k0, v0) :: rest => if k0 = k then some v0 else mapGet rest k

/-- `A.forEach(r => map.set(keyFn(r), r))`. -/
def buildMap (kj : KeyJoin) (l : List Row) : List (List Char × Row) :=
  l.foldl (fun m r => mapSet m (keyFn kj r) r) []

/-- The month partition `rows.filter(r => r.月份 === month)`. -/
def periodRows (base : List Row) (m : List Char) : List Row :=
  base.filter (fun r => r.month == some m)

/-- `Set` insertion. -/
def setAdd (acc : List (List Char)) (k : List Char) : List (List Char) :=
  if k ∈ acc then acc else acc ++ [k]

/-- `new Set([...mapA.keys(), ...mapB.keys()])` in insertion order. -/
def compareKeys (base : List Row) (ma mb : List Char) (kj : KeyJoin) :
    List (List Char) :=
  (((buildMap kj (periodRows base ma)).map (·.1)) ++
   ((buildMap kj (periodRows base mb)).map (·.1))).foldl setAdd []

/-- Emission of one ComparisonRow for key `k` (part_000 lines 470–489):
missing-side numeric fields default to 0, identity fields to the present
side's label, else the empty string. -/
def emitCompare (mapA mapB : List (List Char × Row)) (k : List Char) : CompareRow :=
  let a := mapGet mapA k
  let b := mapGet mapB k
  let ag := ((a.map (·.agent)).or (b.map (·.agent))).getD []
  let mer := ((a.map (·.merchant)).or (b.map (·.merchant))).getD []
  let oA := (a.map (·.openAmt)).getD 0
  let oB := (b.map (·.openAmt)).getD 0
  let rA := (a.map (·.revenue)).getD 0
  let rB := (b.map (·.revenue)).getD 0
  let tA := (a.map (·.ratio)).getD 0
  let tB := (b.map (·.ratio)).getD 0
  ⟨ag, mer, oA, oB, oB - oA, rA, rB, rB - rA, tA, tB, tB - tA⟩

/-- `compareRows` (part_000 lines 459–492): the period comparator.  Returns
`[]` when either month selector is unset; otherwise an outer join over the
two key maps, sorted descending by Δ營業額. -/
def compareRows (base : List Row) (monthA monthB : Option (List Char))
    (kj : KeyJoin) : List CompareRow :=
  match monthA, monthB with
  | some ma, some mb =>
    let mapA := buildMap kj (periodRows base ma)
    let mapB := buildMap kj (periodRows base mb)
    let keys := compareKeys base ma mb kj
    let out := keys.map (emitCompare mapA mapB)
    sortBy (fun x y => decide (y.dRev ≤ x.dRev)) out
  | _, _ => []

/-! ### Derived abbreviations used by the histogram development -/

/-- The ratio column of a row set. -/
def ratioList (rows : List Row) : List ℚ := rows.map (·.ratio)

/-- The minimum ratio (`Math.min(...rows.map(r => r.比率))`). -/
def histMn (rows : List Row) : ℚ := listMinQ (ratioList rows)

/-- The maximum ratio. -/
def histMx (rows : List Row) : ℚ := listMaxQ (ratioList rows)

/-- The binned range floor at the default step 0.05. -/
def histLo (rows : List Row) : ℚ := toStepQ (1 / 20) (histMn rows - 1 / 20) Int.floor

/-- The binned range ceiling at the default step 0.05. -/
def histHi (rows : List Row) : ℚ := toStepQ (1 / 20) (histMx rows + 1 / 20) Int.ceil

/-- The exact bin count at the default step 0.05. -/
def histM (rows : List Row) : ℕ := (⌈(histHi rows - histLo rows) / (1 / 20)⌉).toNat

/-! ### Shared concrete sample data (the spec §8 example scenario and small
variations), used to instantiate the theorems below -/

def exM7 : List Char := ("2025-07").data
def exM8 : List Char := ("2025-08").data

/-- `{month: "2025-07", agent: "X", merchant: "M1", open: 1200000,
revenue: 300000, ratio: 0.25}` — the first expected Row of spec §8. -/
def exRowA : Row :=
  { month := some exM7, agent := ("X").data, merchant := ("M1").data,
    openAmt := 1200000, revenue := 300000, ratio := 1 / 4,
    machines := .vundefined, note := .vundefined, low25 := .vundefined, hours := .vundefined }

/-- The second expected Row of spec §8 (ratio 210000/900000 = 7/30). -/
def exRowB : Row :=
  { exRowA with
    merchant := ("M2").data, openAmt := 900000, revenue := 210000, ratio := 7 / 30 }

/-- A row whose open amount is 0 (merchant sums to a zero total). -/
def exRowZero : Row := { exRowA with openAmt := 0 }

/-- A row with open amount 10. -/
def exRowTen : Row := { exRowA with openAmt := 10 }

/-- A row with a negative open amount under a second merchant. -/
def exRowNeg : Row := { exRowA with merchant := ("M2").data, openAmt := -5 }

/-- A duplicate-key variant of `exRowA` with different amounts (same agent,
merchant and month, so the same join key in period 2025-07). -/
def exRowDup : Row := { exRowA with openAmt := 7, revenue := 3, ratio := 3 / 7 }

/-- The spec §8 ingestion example record
`{agent:"X", merchant:"M1", open:"1,200,000", revenue:"300000"}`. -/
def exRec : Rec :=
  [(kAgent1, .vstr (("X").data)), (kStore1, .vstr (("M1").data)),
   (kOpen1, .vstr (("1,200,000").data)), (kRev1, .vstr (("300000").data))]

/-- A record with an empty merchant, dropped by the ingestion filter. -/
def exRecBad : Rec :=
  [(kAgent1, .vstr (("Y").data)), (kStore1, .vstr (("  ").data)),
   (kOpen1, .vstr (("5").data)), (kRev1, .vstr (("1").data))]

/-! ## General lemmas -/

/- Batteries marks the ℚ field operations irreducible, which blocks `decide`
on concrete rational computations; restore reducibility for this file. -/
attribute [local semireducible] Rat.add Rat.mul Rat.sub Rat.inv Rat.ofScientific

/-- `toFixed2` is monotone (rounding ties towards the larger value). -/
theorem toFixed2_mono {a b : ℚ} (h : a ≤ b) : toFixed2 a ≤ toFixed2 b := by
  unfold toFixed2
  have hf : ⌊a * 100 + 1 / 2⌋ ≤ ⌊b * 100 + 1 / 2⌋ :=
    Int.floor_le_floor (by linarith)
  exact (div_le_div_iff_of_pos_right (by norm_num)).mpr (by exact_mod_cast hf)

/-- `dropWhile` leaves a list whose head does not satisfy the predicate. -/
theorem dropWhile_head_false (p : Char → Bool) (l : List Char) :
    ∀ c, (l.dropWhile p).head? = some c → p c = false := by
  induction l with
  | nil => simp
  | cons a t ih =>
      intro c hc
      by_cases h : p a
      · exact ih c (by simpa [List.dropWhile_cons, h] using hc)
      · have : a = c := by simpa [List.dropWhile_cons, h] using hc
        subst this
        simpa using h

/-- A list whose head does not satisfy `p` is unchanged by `dropWhile p`. -/
theorem dropWhile_eq_self_of_head (p : Char → Bool) (l : List Char)
    (h : ∀ c, l.head? = some c → p c = false) : l.dropWhile p = l := by
  cases l with
  | nil => rfl
  | cons a t => simp [List.dropWhile_cons, h a rfl]

/-- Dropping a last element only happens on the empty tail. -/
theorem getLast?_cons_of_ne {α : Type} (a : α) (t : List α) (h : t ≠ []) :
    (a :: t).getLast? = t.getLast? := by
  cases t with
  | nil => exact absurd rfl h
  | cons b u => exact List.getLast?_cons_cons ..

/-- `dropWhile` keeps the last element of the list when nonempty. -/
theorem getLast?_dropWhile (p : Char → Bool) (l : List Char)
    (h : l.dropWhile p ≠ []) : (l.dropWhile p).getLast? = l.getLast? := by
  induction l with
  | nil => simp [List.dropWhile] at h
  | cons a t ih =>
      by_cases hp : p a
      · have hrw : (a :: t).dropWhile p = t.dropWhile p := by
          simp [List.dropWhile_cons, hp]
        have h2 : t.dropWhile p ≠ [] := by rw [hrw] at h; exact h
        have ht : t ≠ [] := by
          rintro rfl
          simp [List.dropWhile] at h2
        rw [hrw, ih h2, getLast?_cons_of_ne a t ht]
      · simp [List.dropWhile_cons, hp]

/-- The head of a trimmed string is not whitespace. -/
theorem jsTrim_head (l : List Char) :
    ∀ c, (jsTrim l).head? = some c → isWsChar c = false := by
  intro c hc
  unfold jsTrim at hc
  rw [List.head?_reverse] at hc
  have hne : ((l.dropWhile isWsChar).reverse.dropWhile isWsChar) ≠ [] := by
    intro h0
    rw [h0] at hc
    simp at hc
  rw [getLast?_dropWhile _ _ hne, List.getLast?_reverse] at hc
  exact dropWhile_head_false _ _ c hc

/-- The last character of a trimmed string is not whitespace. -/
theorem jsTrim_last (l : List Char) :
    ∀ c, (jsTrim l).getLast? = some c → isWsChar c = false := by
  intro c hc
  unfold jsTrim at hc
  rw [List.getLast?_reverse] at hc
  exact dropWhile_head_false _ _ c hc

/-- Trimming is idempotent. -/
theorem jsTrim_idem (l : List Char) : jsTrim (jsTrim l) = jsTrim l := by
  have h1 : (jsTrim l).dropWhile isWsChar = jsTrim l :=
    dropWhile_eq_self_of_head _ _ (jsTrim_head l)
  have h2 : (jsTrim l).reverse.dropWhile isWsChar = (jsTrim l).reverse := by
    refine dropWhile_eq_self_of_head _ _ ?_
    intro c hc
    rw [List.head?_reverse] at hc
    exact jsTrim_last l c hc
  show ((((jsTrim l).dropWhile isWsChar).reverse).dropWhile isWsChar).reverse = jsTrim l
  rw [h1, h2, List.reverse_reverse]

/-- The spec-side unit-suffix table lookup agrees with the source's if-chain. -/
theorem multTable_eq (s : List Char) :
    ((((unitTable.find? (fun u => strIncludes s u.1)).map (·.2)).getD 1) : ℚ) =
      (if strIncludes s ['億'] then (10 : ℚ) ^ 8
       else if strIncludes s ['百', '萬'] then 10 ^ 6
       else if strIncludes s ['萬'] then 10 ^ 4 else 1) := by
  by_cases h1 : strIncludes s ['億'] <;> by_cases h2 : strIncludes s ['百', '萬'] <;>
    by_cases h3 : strIncludes s ['萬'] <;>
      simp [unitTable, List.find?, h1, h2, h3]

/-! ## Claim theorems -/

/-- C1 counterexample: with the dataset `[exRowA]` (all rows in 2025-07) and
the selected pair (2025-07, 2025-08), period B is resolved to no rows, yet
`compareRows` is non-empty — the claim's "selected period has no rows ⇒
empty list" is false on the code. -/
theorem c1_counterexample :
    periodRows [exRowA] exM8 = [] ∧
    compareRows [exRowA] (some exM7) (some exM8) .agentMerchant ≠ [] := by
  decide

/-- C1 (amended): if either period selector is unset, the comparator returns
an empty list — not an error. -/
theorem c1_amended (base : List Row) (kj : KeyJoin)
    (monthA monthB : Option (List Char)) (h : monthA = none ∨ monthB = none) :
    compareRows base monthA monthB kj = [] := by
  rcases h with h | h
  · subst h; cases monthB <;> rfl
  · subst h; cases monthA <;> rfl

/-- Witness for C1 (amended) at a concrete unset selector. -/
theorem c1_amended_witness :
    compareRows [exRowA] none (some exM8) .agentMerchant = [] :=
  c1_amended [exRowA] .agentMerchant none (some exM8) (Or.inl rfl)

/-- C3 counterexample: the ingestion coercion `num` strips the percent sign
without dividing by 100 (`"50%" ↦ 50`, not `0.5`), and yields 0 on a
unit-suffixed string; moreover in `coerceNumber` the unit token need not be
trailing (`"萬3" ↦ 30000`), and an unparsable numeric portion in the percent
branch yields NaN rather than 0. -/
theorem c3_counterexample :
    num (.vstr (("50%").data)) = 50 ∧ (50 : ℚ) ≠ 1 / 2 ∧
    num (.vstr (("3萬").data)) = 0 ∧
    coerceNumber (.vstr (("萬3").data)) = some 30000 ∧
    coerceNumber (.vstr (("x%").data)) = none := by
  decide

/-- C3 (amended): the percent/unit handling belongs to the sortable-value
accessor `coerceNumber`, which agrees with the spec-modelled coercion
(unit-suffix table, percent division, NaN on an unparsable percent portion,
0 on other unparsable input); the ingestion coercion `num` instead strips
commas, whitespace and percent signs and parses the remainder directly; an
already-numeric input is returned unchanged by both. -/
theorem c3_amended :
    (∀ v, coerceNumber v = coerceSpec v) ∧ (∀ v, num v = numSpec v) ∧
    (∀ q : ℚ, num (.vnum q) = q ∧ coerceNumber (.vnum q) = some q) := by
  refine ⟨?_, ?_, fun q => ⟨rfl, rfl⟩⟩
  · intro v
    cases v with
    | vstr s0 => simp only [coerceNumber, coerceSpec, multTable_eq]
    | vnum q => rfl
    | vnull => rfl
    | vundefined => rfl
  · intro v
    cases v with
    | vstr s0 => cases s0 <;> rfl
    | vnum q => rfl
    | vnull => rfl
    | vundefined => rfl

/-- C6: when no explicit ratio-bearing field is present (or it is empty), the
ingested ratio is exactly revenue/open when the coerced open amount is
positive, and 0 otherwise. -/
theorem c6_ratio_fallback (cy : ℕ) (r : Rec) (bm : List Char)
    (h : ratioSrcRaw r = []) :
    (0 < (toRow cy r bm).openAmt →
        (toRow cy r bm).ratio = (toRow cy r bm).revenue / (toRow cy r bm).openAmt) ∧
    ((toRow cy r bm).openAmt ≤ 0 → (toRow cy r bm).ratio = 0) := by
  constructor <;> intro h2 <;> simp only [toRow, h] at h2 ⊢ <;>
    rw [if_pos (show (([] : List Char).isEmpty = true) from rfl)]
  · rw [if_pos h2]
  · rw [if_neg (not_lt.mpr h2)]

/-- Witness for C6 on the spec §8 example record (ratio 300000/1200000). -/
theorem c6_ratio_fallback_witness :
    ratioSrcRaw exRec = [] ∧ 0 < (toRow 2025 exRec exM7).openAmt ∧
    (toRow 2025 exRec exM7).ratio =
      (toRow 2025 exRec exM7).revenue / (toRow 2025 exRec exM7).openAmt :=
  ⟨by decide, by decide, (c6_ratio_fallback 2025 exRec exM7 (by decide)).1 (by decide)⟩

/-- C7: appending yields the existing rows followed by the (month
back-filled) incoming rows; replacing yields the incoming rows only; the
lengths add up accordingly. -/
theorem c7_merge (existing incoming : List Row) (cy : ℕ) (bm : List Char) :
    (mergeRows existing incoming true cy bm).length =
        existing.length + incoming.length ∧
    (mergeRows existing incoming false cy bm).length = incoming.length ∧
    mergeRows existing incoming true cy bm =
      existing ++ mergeRows existing incoming false cy bm := by
  refine ⟨?_, ?_, ?_⟩ <;> simp [mergeRows]

/-- C8: a row is dropped by the exclusion stage iff its agent field contains
some token of the split input as a (case-sensitive) substring; an empty token
list excludes nothing. -/
theorem c8_exclusion (input : List Char) (d : List Row) (r : Row) (hr : r ∈ d) :
    ((r ∉ applyExclude input d) ↔
        ∃ t ∈ excludeTokens input, strIncludes r.agent t = true) ∧
    (excludeTokens input = [] → applyExclude input d = d) := by
  constructor
  · by_cases he : (excludeTokens input).isEmpty = true
    · have h0 : excludeTokens input = [] := List.isEmpty_eq_true.mp he
      simp [applyExclude, h0, hr]
    · have h0 : excludeTokens input ≠ [] := by
        intro hx
        rw [hx] at he
        simp at he
      unfold applyExclude
      rw [if_neg he, List.mem_filter]
      simp only [passExclude, hr, true_and]
      constructor
      · intro hnot
        by_cases hany : (excludeTokens input).any (fun t => strIncludes r.agent t) = true
        · simpa using List.any_eq_true.mp hany
        · exact absurd (by simp [hany, he]) hnot
      · intro hex hcontra
        obtain ⟨t, ht, hinc⟩ := hex
        simp only [Bool.or_eq_true, List.isEmpty_eq_true, Bool.not_eq_true'] at hcontra
        rcases hcontra with h1 | h2
        · exact h0 h1
        · exact absurd (List.any_eq_true.mpr ⟨t, ht, hinc⟩) (by simp [h2])
  · intro h0
    simp [applyExclude, h0]

/-- Witness for C8 on a concrete row and token input: the agent `"X"`
contains the token `"X"`, so the row is dropped. -/
theorem c8_exclusion_witness :
    ((exRowA ∉ applyExclude (("X,其他").data) [exRowA]) ↔
        ∃ t ∈ excludeTokens (("X,其他").data),
          strIncludes exRowA.agent t = true) :=
  (c8_exclusion (("X,其他").data) [exRowA] exRowA (by decide)).1

/-- C9: every row surviving ingestion has a non-empty agent and merchant even
after (idempotent) trimming, and the invariant is preserved by the merge in
both modes when the existing dataset satisfies it. -/
theorem c9_identity_invariant (cy : ℕ) (recs : List Rec) (bm bm2 : List Char)
    (mode : Bool) (existing : List Row)
    (hex : ∀ r ∈ existing, jsTrim r.agent ≠ [] ∧ jsTrim r.merchant ≠ []) :
    (∀ r ∈ parseRecords cy recs bm,
        jsTrim r.agent ≠ [] ∧ jsTrim r.merchant ≠ []) ∧
    (∀ r ∈ mergeRows existing (parseRecords cy recs bm) mode cy bm2,
        jsTrim r.agent ≠ [] ∧ jsTrim r.merchant ≠ []) := by
  have hparse : ∀ r ∈ parseRecords cy recs bm,
      jsTrim r.agent ≠ [] ∧ jsTrim r.merchant ≠ [] := by
    intro r hrmem
    obtain ⟨hmem, hkeep⟩ := List.mem_filter.mp hrmem
    obtain ⟨rec0, _, hEq⟩ := List.mem_map.mp hmem
    have hkeep' := hkeep
    simp only [keepIdent, Bool.and_eq_true, Bool.not_eq_true',
      List.isEmpty_eq_false] at hkeep'
    subst hEq
    have ha : (toRow cy rec0 bm).agent =
        jsTrim (jsToString (pick rec0 [kAgent1, kAgent2, kAgent3] (.vstr []))) := rfl
    have hm : (toRow cy rec0 bm).merchant =
        jsTrim (jsToString (pick rec0 [kStore1, kStore2] (.vstr []))) := rfl
    refine ⟨?_, ?_⟩
    · rw [ha, jsTrim_idem, ← ha]; exact hkeep'.1
    · rw [hm, jsTrim_idem, ← hm]; exact hkeep'.2
  refine ⟨hparse, ?_⟩
  intro r hr
  unfold mergeRows at hr
  have hback : ∀ x ∈ (parseRecords cy recs bm).map (backfillMonth cy bm2),
      jsTrim x.agent ≠ [] ∧ jsTrim x.merchant ≠ [] := by
    intro x hx
    obtain ⟨y, hy, hEq⟩ := List.mem_map.mp hx
    subst hEq
    exact hparse y hy
  cases mode with
  | true =>
      simp only [if_pos rfl] at hr
      rcases List.mem_append.mp hr with h1 | h2
      · exact hex r h1
      · exact hback r h2
  | false =>
      simp only [if_neg Bool.false_ne_true] at hr
      exact hback r hr

/-- Witness for C9: ingesting the spec §8 record together with an
empty-merchant record, then appending onto `[exRowA]`, keeps the invariant. -/
theorem c9_identity_invariant_witness :
    (∀ r ∈ parseRecords 2025 [exRec, exRecBad] exM7,
        jsTrim r.agent ≠ [] ∧ jsTrim r.merchant ≠ []) ∧
    (∀ r ∈ mergeRows [exRowA] (parseRecords 2025 [exRec, exRecBad] exM7) true 2025 [],
        jsTrim r.agent ≠ [] ∧ jsTrim r.merchant ≠ []) :=
  c9_identity_invariant 2025 [exRec, exRecBad] exM7 [] true [exRowA] (by decide)

/-! ## Sorting and map lemmas for the comparator -/

theorem length_insertBy {α : Type} (le : α → α → Bool) (a : α) (l : List α) :
    (insertBy le a l).length = l.length + 1 := by
  induction l with
  | nil => rfl
  | cons b t ih =>
      by_cases h : le a b <;> simp [insertBy, h, ih]

theorem mem_insertBy {α : Type} (le : α → α → Bool) (a x : α) (l : List α) :
    x ∈ insertBy le a l ↔ x = a ∨ x ∈ l := by
  induction l with
  | nil => simp [insertBy]
  | cons b t ih =>
      by_cases h : le a b = true
      · simp [insertBy, if_pos h]
      · simp only [insertBy, if_neg h, List.mem_cons, ih]
        tauto

theorem length_sortBy {α : Type} (le : α → α → Bool) (l : List α) :
    (sortBy le l).length = l.length := by
  induction l with
  | nil => rfl
  | cons b t ih =>
      show (insertBy le b (sortBy le t)).length = t.length + 1
      rw [length_insertBy, ih]

theorem mem_sortBy {α : Type} (le : α → α → Bool) (x : α) (l : List α) :
    x ∈ sortBy le l ↔ x ∈ l := by
  induction l with
  | nil => simp [sortBy]
  | cons b t ih =>
      show x ∈ insertBy le b (sortBy le t) ↔ _
      rw [mem_insertBy]
      simp [ih]

theorem mapGet_mapSet (m : List (List Char × Row)) (k k' : List Char) (v : Row) :
    mapGet (mapSet m k v) k' = if k' = k then some v else mapGet m k' := by
  induction m with
  | nil =>
      by_cases h : k' = k
      · subst h; simp [mapSet, mapGet]
      · have h2 : ¬ k = k' := fun hx => h hx.symm
        simp [mapSet, mapGet, h, h2]
  | cons p t ih =>
      obtain ⟨k0, v0⟩ := p
      by_cases h : k0 = k
      · subst h
        by_cases h2 : k' = k0
        · subst h2; simp [mapSet, mapGet]
        · have h3 : ¬ k0 = k' := fun hx => h2 hx.symm
          simp [mapSet, mapGet, h2, h3]
      · by_cases h2 : k0 = k'
        · have h3 : ¬ k' = k := fun hx => h (h2.trans hx)
          simp [mapSet, mapGet, h, h2, h3]
        · simp [mapSet, mapGet, h, h2, ih]

theorem mapGet_foldl_mapSet (kj : KeyJoin) (l : List Row)
    (m0 : List (List Char × Row)) (k : List Char) :
    mapGet (l.foldl (fun m r => mapSet m (keyFn kj r) r) m0) k =
      ((l.filter (fun r => keyFn kj r == k)).getLast?).or (mapGet m0 k) := by
  induction l generalizing m0 with
  | nil => simp
  | cons r t ih =>
      rw [List.foldl_cons, ih, mapGet_mapSet]
      by_cases h : keyFn kj r = k
      · rw [List.filter_cons_of_pos (by simpa using h), if_pos h.symm]
        have hcons : (r :: t.filter (fun x => keyFn kj x == k)).getLast? =
            ((t.filter (fun x => keyFn kj x == k)).getLast?).or (some r) := by
          rw [show r :: t.filter (fun x => keyFn kj x == k) =
              [r] ++ t.filter (fun x => keyFn kj x == k) from rfl,
            List.getLast?_append]
          rfl
        rw [hcons, Option.or_assoc]
        congr 1
      · rw [List.filter_cons_of_neg (by simpa using h), if_neg (fun hx => h hx.symm)]

theorem buildMap_get (kj : KeyJoin) (l : List Row) (k : List Char) :
    mapGet (buildMap kj l) k = (l.filter (fun r => keyFn kj r == k)).getLast? := by
  unfold buildMap
  rw [mapGet_foldl_mapSet]
  simp [mapGet]

theorem mapSet_map_fst (m : List (List Char × Row)) (k : List Char) (v : Row) :
    (mapSet m k v).map Prod.fst =
      (if k ∈ m.map Prod.fst then m.map Prod.fst else m.map Prod.fst ++ [k]) := by
  induction m with
  | nil => simp [mapSet]
  | cons p t ih =>
      obtain ⟨k0, v0⟩ := p
      by_cases h : k0 = k
      · subst h
        simp [mapSet]
      · simp only [mapSet, if_neg h, List.map_cons, ih]
        by_cases h2 : k ∈ t.map Prod.fst
        · rw [if_pos h2, if_pos (by simp [h2])]
        · rw [if_neg h2, if_neg (by simp [h2]; exact fun hx => h hx.symm)]
          simp

theorem mem_mapSet_keys (m : List (List Char × Row)) (k k' : List Char) (v : Row) :
    k' ∈ (mapSet m k v).map Prod.fst ↔ k' ∈ m.map Prod.fst ∨ k' = k := by
  rw [mapSet_map_fst]
  by_cases h : k ∈ m.map Prod.fst
  · rw [if_pos h]
    constructor
    · exact Or.inl
    · rintro (hx | rfl)
      · exact hx
      · exact h
  · rw [if_neg h]
    simp

theorem nodup_mapSet_keys (m : List (List Char × Row)) (k : List Char) (v : Row)
    (h : (m.map Prod.fst).Nodup) : ((mapSet m k v).map Prod.fst).Nodup := by
  rw [mapSet_map_fst]
  by_cases h2 : k ∈ m.map Prod.fst
  · rwa [if_pos h2]
  · rw [if_neg h2]
    simp [List.nodup_append, h, h2]

theorem buildMap_keys_nodup (kj : KeyJoin) (l : List Row) :
    ((buildMap kj l).map Prod.fst).Nodup := by
  have hgen : ∀ m0 : List (List Char × Row), (m0.map Prod.fst).Nodup →
      ((l.foldl (fun m r => mapSet m (keyFn kj r) r) m0).map Prod.fst).Nodup := by
    induction l with
    | nil => intro m0 h; simpa using h
    | cons r t ih =>
        intro m0 h
        rw [List.foldl_cons]
        exact ih _ (nodup_mapSet_keys m0 _ r h)
  exact hgen [] (by simp)

theorem buildMap_keys_mem (kj : KeyJoin) (l : List Row) (k : List Char) :
    k ∈ (buildMap kj l).map Prod.fst ↔ k ∈ l.map (keyFn kj) := by
  have hgen : ∀ m0 : List (List Char × Row),
      (k ∈ (l.foldl (fun m r => mapSet m (keyFn kj r) r) m0).map Prod.fst ↔
        k ∈ m0.map Prod.fst ∨ k ∈ l.map (keyFn kj)) := by
    induction l with
    | nil => intro m0; simp
    | cons r t ih =>
        intro m0
        rw [List.foldl_cons, ih, mem_mapSet_keys]
        simp
        tauto
  unfold buildMap
  rw [hgen []]
  simp

theorem mem_setAdd (acc : List (List Char)) (k x : List Char) :
    x ∈ setAdd acc k ↔ x ∈ acc ∨ x = k := by
  unfold setAdd
  by_cases h : k ∈ acc
  · rw [if_pos h]
    constructor
    · exact Or.inl
    · rintro (hx | rfl)
      · exact hx
      · exact h
  · rw [if_neg h]
    simp

theorem mem_foldl_setAdd (l acc : List (List Char)) (x : List Char) :
    x ∈ l.foldl setAdd acc ↔ x ∈ acc ∨ x ∈ l := by
  induction l generalizing acc with
  | nil => simp
  | cons k t ih =>
      rw [List.foldl_cons, ih, mem_setAdd]
      simp
      tauto

theorem nodup_setAdd (acc : List (List Char)) (k : List Char)
    (h : acc.Nodup) : (setAdd acc k).Nodup := by
  unfold setAdd
  by_cases h2 : k ∈ acc
  · rwa [if_pos h2]
  · rw [if_neg h2]
    simp [List.nodup_append, h, h2]

theorem nodup_foldl_setAdd (l acc : List (List Char)) (h : acc.Nodup) :
    (l.foldl setAdd acc).Nodup := by
  induction l generalizing acc with
  | nil => simpa using h
  | cons k t ih =>
      rw [List.foldl_cons]
      exact ih _ (nodup_setAdd acc k h)

theorem compareKeys_nodup (base : List Row) (ma mb : List Char) (kj : KeyJoin) :
    (compareKeys base ma mb kj).Nodup :=
  nodup_foldl_setAdd _ [] (by simp)

theorem mem_compareKeys (base : List Row) (ma mb : List Char) (kj : KeyJoin)
    (k : List Char) :
    k ∈ compareKeys base ma mb kj ↔
      k ∈ (periodRows base ma).map (keyFn kj) ∨
      k ∈ (periodRows base mb).map (keyFn kj) := by
  unfold compareKeys
  rw [mem_foldl_setAdd, List.mem_append, buildMap_keys_mem, buildMap_keys_mem]
  simp

/-- `compareRows` on two selected months, unfolded. -/
theorem compareRows_some (base : List Row) (ma mb : List Char) (kj : KeyJoin) :
    compareRows base (some ma) (some mb) kj =
      sortBy (fun x y => decide (y.dRev ≤ x.dRev))
        ((compareKeys base ma mb kj).map
          (emitCompare (buildMap kj (periodRows base ma))
            (buildMap kj (periodRows base mb)))) := rfl

/-- C4: with both periods selected, the comparator emits exactly one row per
key of the union of the two period key sets (so the length is the union's
cardinality); in every row `Δ營業額 = 營業額B − 營業額A` exactly, and each
side's revenue is that of the period's (last) row under the key, or 0 when
the side lacks the key. -/
theorem c4_outer_join (base : List Row) (ma mb : List Char) (kj : KeyJoin) :
    (compareRows base (some ma) (some mb) kj).length =
      (((periodRows base ma).map (keyFn kj)).toFinset ∪
        ((periodRows base mb).map (keyFn kj)).toFinset).card ∧
    (∀ cr ∈ compareRows base (some ma) (some mb) kj, cr.dRev = cr.revB - cr.revA) ∧
    (∀ k ∈ compareKeys base ma mb kj,
      ∃ cr ∈ compareRows base (some ma) (some mb) kj,
        cr.revA = ((((periodRows base ma).filter
            (fun r => keyFn kj r == k)).getLast?).map (·.revenue)).getD 0 ∧
        cr.revB = ((((periodRows base mb).filter
            (fun r => keyFn kj r == k)).getLast?).map (·.revenue)).getD 0) := by
  refine ⟨?_, ?_, ?_⟩
  · rw [compareRows_some, length_sortBy, List.length_map]
    have hcard : (compareKeys base ma mb kj).toFinset.card =
        (compareKeys base ma mb kj).length :=
      List.toFinset_card_of_nodup (compareKeys_nodup base ma mb kj)
    rw [← hcard]
    congr 1
    ext x
    simp only [List.mem_toFinset, Finset.mem_union, mem_compareKeys]
  · intro cr hcr
    rw [compareRows_some, mem_sortBy] at hcr
    obtain ⟨k, _, hEq⟩ := List.mem_map.mp hcr
    subst hEq
    rfl
  · intro k hk
    refine ⟨emitCompare (buildMap kj (periodRows base ma))
        (buildMap kj (periodRows base mb)) k, ?_, ?_, ?_⟩
    · rw [compareRows_some, mem_sortBy]
      exact List.mem_map_of_mem _ hk
    · show ((mapGet (buildMap kj (periodRows base ma)) k).map (·.revenue)).getD 0 = _
      rw [buildMap_get]
    · show ((mapGet (buildMap kj (periodRows base mb)) k).map (·.revenue)).getD 0 = _
      rw [buildMap_get]

/-- C10: inside one period, a later row with the same join key overwrites an
earlier one in the key map, so the comparator's side-A values are exactly
those of the last such row (not a sum over the duplicates). -/
theorem c10_last_wins (base : List Row) (ma mb : List Char) (kj : KeyJoin)
    (k : List Char) (r : Row)
    (hdup : 2 ≤ ((periodRows base ma).filter (fun x => keyFn kj x == k)).length)
    (hlast : ((periodRows base ma).filter (fun x => keyFn kj x == k)).getLast? = some r) :
    ∃ cr ∈ compareRows base (some ma) (some mb) kj,
      cr.openA = r.openAmt ∧ cr.revA = r.revenue ∧ cr.ratioA = r.ratio := by
  have hget : mapGet (buildMap kj (periodRows base ma)) k = some r := by
    rw [buildMap_get]; exact hlast
  have hne : ((periodRows base ma).filter (fun x => keyFn kj x == k)) ≠ [] := by
    intro h0
    rw [h0] at hlast
    simp at hlast
  have hkmem : k ∈ compareKeys base ma mb kj := by
    rw [mem_compareKeys]
    left
    obtain ⟨x, hx⟩ := List.exists_mem_of_ne_nil _ hne
    have hx' := List.mem_filter.mp hx
    exact List.mem_map.mpr ⟨x, hx'.1, by simpa using hx'.2⟩
  refine ⟨emitCompare (buildMap kj (periodRows base ma))
      (buildMap kj (periodRows base mb)) k, ?_, ?_, ?_, ?_⟩
  · rw [compareRows_some, mem_sortBy]
    exact List.mem_map_of_mem _ hkmem
  · show ((mapGet (buildMap kj (periodRows base ma)) k).map (·.openAmt)).getD 0 = _
    rw [hget]
    rfl
  · show ((mapGet (buildMap kj (periodRows base ma)) k).map (·.revenue)).getD 0 = _
    rw [hget]
    rfl
  · show ((mapGet (buildMap kj (periodRows base ma)) k).map (·.ratio)).getD 0 = _
    rw [hget]
    rfl

/-- Witness for C10: two 2025-07 rows share the key `X__M1`; the emitted
side-A values are the last row's (7, 3, 3/7), not sums. -/
theorem c10_last_wins_witness :
    ∃ cr ∈ compareRows [exRowA, exRowDup] (some exM7) (some exM8) .agentMerchant,
      cr.openA = exRowDup.openAmt ∧ cr.revA = exRowDup.revenue ∧
      cr.ratioA = exRowDup.ratio :=
  c10_last_wins [exRowA, exRowDup] exM7 exM8 .agentMerchant
    (keyFn .agentMerchant exRowA) exRowDup (by decide) (by decide)

/-! ## Pareto lemmas -/

theorem addToMap_nonneg (m : List (List Char × ℚ)) (k : List Char) (v : ℚ)
    (hm : ∀ p ∈ m, 0 ≤ p.2) (hv : 0 ≤ v) : ∀ p ∈ addToMap m k v, 0 ≤ p.2 := by
  induction m with
  | nil =>
      intro p hp
      simp [addToMap] at hp
      subst hp
      exact hv
  | cons q t ih =>
      obtain ⟨k0, v0⟩ := q
      by_cases h : k0 = k
      · intro p hp
        simp only [addToMap, if_pos h, List.mem_cons] at hp
        rcases hp with rfl | hp
        · have h0 : (0 : ℚ) ≤ v0 := hm (k0, v0) (by simp)
          simpa using add_nonneg h0 hv
        · exact hm p (by simp [hp])
      · intro p hp
        simp only [addToMap, if_neg h, List.mem_cons] at hp
        rcases hp with rfl | hp
        · exact hm (k0, v0) (by simp)
        · exact ih (fun q hq => hm q (by simp [hq])) p hp

theorem paretoSums_nonneg (rows : List Row) (h : ∀ r ∈ rows, 0 ≤ r.openAmt) :
    ∀ p ∈ paretoSums rows, 0 ≤ p.2 := by
  have hgen : ∀ (l : List Row) (m0 : List (List Char × ℚ)), (∀ p ∈ m0, 0 ≤ p.2) →
      (∀ r ∈ l, 0 ≤ r.openAmt) →
      ∀ p ∈ l.foldl (fun m r => addToMap m r.merchant r.openAmt) m0, 0 ≤ p.2 := by
    intro l
    induction l with
    | nil => intro m0 hm _; simpa using hm
    | cons r t ih =>
        intro m0 hm hr
        rw [List.foldl_cons]
        exact ih (addToMap m0 r.merchant r.openAmt)
          (addToMap_nonneg m0 r.merchant r.openAmt hm (hr r (by simp)))
          (fun x hx => hr x (List.mem_cons_of_mem _ hx))
  exact hgen rows [] (by simp) h

theorem cumShares_lb (total : ℚ) (ht : 0 < total) (lst : List (List Char × ℚ)) :
    ∀ cum, (∀ p ∈ lst, 0 ≤ p.2) →
    ∀ x ∈ (cumShares total cum lst).map (·.cumShare),
      toFixed2 (cum / total * 100) ≤ x := by
  induction lst with
  | nil => intro cum _ x hx; simp [cumShares] at hx
  | cons q t ih =>
      intro cum hnn x hx
      obtain ⟨k, v⟩ := q
      simp only [cumShares, List.map_cons, List.mem_cons] at hx
      have hv : (0 : ℚ) ≤ v := hnn (k, v) (by simp)
      have hstep : toFixed2 (cum / total * 100) ≤ toFixed2 ((cum + v) / total * 100) := by
        apply toFixed2_mono
        have h1 : cum / total ≤ (cum + v) / total :=
          (div_le_div_iff_of_pos_right ht).mpr (by linarith)
        exact mul_le_mul_of_nonneg_right h1 (by norm_num)
      rcases hx with rfl | hx2
      · exact hstep
      · exact le_trans hstep
          (ih (cum + v) (fun p hp => hnn p (by simp [hp])) x hx2)

theorem cumShares_sorted (total : ℚ) (ht : 0 < total) (lst : List (List Char × ℚ)) :
    ∀ cum, (∀ p ∈ lst, 0 ≤ p.2) →
    List.Sorted (· ≤ ·) ((cumShares total cum lst).map (·.cumShare)) := by
  induction lst with
  | nil => intro cum _; simp [cumShares]
  | cons q t ih =>
      intro cum hnn
      obtain ⟨k, v⟩ := q
      simp only [cumShares, List.map_cons]
      rw [List.sorted_cons]
      refine ⟨?_, ih (cum + v) (fun p hp => hnn p (by simp [hp]))⟩
      intro b hb
      exact cumShares_lb total ht t (cum + v)
        (fun p hp => hnn p (by simp [hp])) b hb

theorem cumShares_getLast (total : ℚ) (lst : List (List Char × ℚ)) :
    ∀ cum, lst ≠ [] →
    ((cumShares total cum lst).map (·.cumShare)).getLast? =
      some (toFixed2 ((lst.foldl (fun s d => s + d.2) cum) / total * 100)) := by
  induction lst with
  | nil => intro cum h; exact absurd rfl h
  | cons q t ih =>
      intro cum _
      obtain ⟨k, v⟩ := q
      by_cases ht : t = []
      · subst ht
        simp [cumShares]
      · have hne : (cumShares total (cum + v) t).map (·.cumShare) ≠ [] := by
          cases t with
          | nil => exact absurd rfl ht
          | cons a u => simp [cumShares]
        simp only [cumShares, List.map_cons]
        rw [getLast?_cons_of_ne _ _ hne, ih (cum + v) ht]
        rfl

/-- C2 counterexample: a single zero-open row yields a final cumulative share
of 0 (not 100 ± 0.01), and one positive plus one negative open amount yield
the strictly decreasing share sequence [200, 100]. -/
theorem c2_counterexample :
    (useParetoByMerchant [exRowZero]).map (·.cumShare) = [0] ∧
    ¬ |(0 : ℚ) - 100| ≤ 1 / 100 ∧
    (useParetoByMerchant [exRowTen, exRowNeg]).map (·.cumShare) = [200, 100] ∧
    ¬ List.Sorted (· ≤ ·) [(200 : ℚ), 100] := by
  refine ⟨by decide, by norm_num, by decide, ?_⟩
  intro h
  have := (List.sorted_cons.mp h).1 100 (by simp)
  norm_num at this

/-- C2 (amended): the empty set yields an empty result; when every open
amount is non-negative and the total is positive, the cumulative-share
sequence is non-decreasing and ends exactly at 100; when the total is 0 the
divisor is replaced by 1, so the shares reflect the raw cumulative sums. -/
theorem c2_amended (rows : List Row) :
    (rows = [] → useParetoByMerchant rows = []) ∧
    ((∀ r ∈ rows, 0 ≤ r.openAmt) → 0 < paretoTotal rows →
      List.Sorted (· ≤ ·) ((useParetoByMerchant rows).map (·.cumShare)) ∧
      ((useParetoByMerchant rows).map (·.cumShare)).getLast? = some 100) ∧
    (paretoTotal rows = 0 →
      useParetoByMerchant rows = cumShares 1 0 (paretoList rows)) := by
  refine ⟨?_, ?_, ?_⟩
  · intro h
    subst h
    decide
  · intro hnn hpos
    have hlist : ∀ p ∈ paretoList rows, 0 ≤ p.2 := by
      intro p hp
      exact paretoSums_nonneg rows hnn p ((mem_sortBy _ p _).mp hp)
    have hne : paretoList rows ≠ [] := by
      intro h0
      unfold paretoTotal at hpos
      rw [h0] at hpos
      simp at hpos
    have hunfold0 : useParetoByMerchant rows =
        cumShares (if paretoTotal rows = 0 then 1 else paretoTotal rows) 0
          (paretoList rows) := rfl
    have hunfold : useParetoByMerchant rows =
        cumShares (paretoTotal rows) 0 (paretoList rows) := by
      rw [hunfold0, if_neg (ne_of_gt hpos)]
    constructor
    · rw [hunfold]
      exact cumShares_sorted (paretoTotal rows) hpos (paretoList rows) 0 hlist
    · rw [hunfold, cumShares_getLast (paretoTotal rows) (paretoList rows) 0 hne]
      have hfold : (paretoList rows).foldl (fun s d => s + d.2) 0 = paretoTotal rows := rfl
      rw [hfold, div_self (ne_of_gt hpos), one_mul]
      norm_num [toFixed2]
  · intro h0
    have hunfold0 : useParetoByMerchant rows =
        cumShares (if paretoTotal rows = 0 then 1 else paretoTotal rows) 0
          (paretoList rows) := rfl
    rw [hunfold0, if_pos h0]

/-- Witness for C2 (amended) on the spec §8 two-row example (shares
[57.14, 100]) and on the zero-total singleton. -/
theorem c2_amended_witness :
    (List.Sorted (· ≤ ·) ((useParetoByMerchant [exRowA, exRowB]).map (·.cumShare)) ∧
      ((useParetoByMerchant [exRowA, exRowB]).map (·.cumShare)).getLast? = some 100) ∧
    useParetoByMerchant [exRowZero] = cumShares 1 0 (paretoList [exRowZero]) :=
  ⟨(c2_amended [exRowA, exRowB]).2.1 (by decide) (by decide),
   (c2_amended [exRowZero]).2.2 (by decide)⟩

/-! ## Histogram lemmas -/

theorem foldl_min_le (t : List ℚ) :
    ∀ a : ℚ, t.foldl min a ≤ a ∧ ∀ x ∈ t, t.foldl min a ≤ x := by
  induction t with
  | nil => intro a; exact ⟨le_refl a, by simp⟩
  | cons b u ih =>
      intro a
      rw [List.foldl_cons]
      obtain ⟨h1, h2⟩ := ih (min a b)
      refine ⟨le_trans h1 (min_le_left a b), ?_⟩
      intro x hx
      rcases List.mem_cons.mp hx with rfl | hx2
      · exact le_trans h1 (min_le_right a x)
      · exact h2 x hx2

theorem le_foldl_max (t : List ℚ) :
    ∀ a : ℚ, a ≤ t.foldl max a ∧ ∀ x ∈ t, x ≤ t.foldl max a := by
  induction t with
  | nil => intro a; exact ⟨le_refl a, by simp⟩
  | cons b u ih =>
      intro a
      rw [List.foldl_cons]
      obtain ⟨h1, h2⟩ := ih (max a b)
      refine ⟨le_trans (le_max_left a b) h1, ?_⟩
      intro x hx
      rcases List.mem_cons.mp hx with rfl | hx2
      · exact le_trans (le_max_right a x) h1
      · exact h2 x hx2

theorem listMinQ_le (l : List ℚ) (x : ℚ) (hx : x ∈ l) : listMinQ l ≤ x := by
  cases l with
  | nil => simp at hx
  | cons a t =>
      rcases List.mem_cons.mp hx with rfl | hx2
      · exact (foldl_min_le t x).1
      · exact (foldl_min_le t a).2 x hx2

theorem le_listMaxQ (l : List ℚ) (x : ℚ) (hx : x ∈ l) : x ≤ listMaxQ l := by
  cases l with
  | nil => simp at hx
  | cons a t =>
      rcases List.mem_cons.mp hx with rfl | hx2
      · exact (le_foldl_max t x).1
      · exact (le_foldl_max t a).2 x hx2

theorem histMn_le_histMx (rows : List Row) (hne : rows ≠ []) :
    histMn rows ≤ histMx rows := by
  cases rows with
  | nil => exact absurd rfl hne
  | cons r t =>
      have h1 : histMn (r :: t) ≤ r.ratio :=
        listMinQ_le _ _ (by simp [ratioList])
      have h2 : r.ratio ≤ histMx (r :: t) :=
        le_listMaxQ _ _ (by simp [ratioList])
      exact le_trans h1 h2

theorem histLo_le (rows : List Row) : histLo rows ≤ histMn rows - 1 / 20 := by
  unfold histLo toStepQ
  have h1 : ((⌊(histMn rows - 1 / 20) / (1 / 20)⌋ : ℚ)) ≤ (histMn rows - 1 / 20) / (1 / 20) :=
    Int.floor_le _
  have h2 := mul_le_mul_of_nonneg_right h1 (by norm_num : (0 : ℚ) ≤ 1 / 20)
  calc (⌊(histMn rows - 1 / 20) / (1 / 20)⌋ : ℚ) * (1 / 20)
      ≤ (histMn rows - 1 / 20) / (1 / 20) * (1 / 20) := h2
    _ = histMn rows - 1 / 20 := div_mul_cancel₀ _ (by norm_num)

theorem le_histHi (rows : List Row) : histMx rows + 1 / 20 ≤ histHi rows := by
  unfold histHi toStepQ
  have h1 : (histMx rows + 1 / 20) / (1 / 20) ≤ ((⌈(histMx rows + 1 / 20) / (1 / 20)⌉ : ℚ)) :=
    Int.le_ceil _
  have h2 := mul_le_mul_of_nonneg_right h1 (by norm_num : (0 : ℚ) ≤ 1 / 20)
  calc histMx rows + 1 / 20
      = (histMx rows + 1 / 20) / (1 / 20) * (1 / 20) := (div_mul_cancel₀ _ (by norm_num)).symm
    _ ≤ (⌈(histMx rows + 1 / 20) / (1 / 20)⌉ : ℚ) * (1 / 20) := h2

theorem histM_spec (rows : List Row) (hne : rows ≠ []) :
    histHi rows = histLo rows + (histM rows : ℚ) * (1 / 20) ∧ 2 ≤ histM rows := by
  have hlo : histLo rows = ((⌊(histMn rows - 1 / 20) / (1 / 20)⌋ : ℤ) : ℚ) * (1 / 20) := rfl
  have hhi : histHi rows = ((⌈(histMx rows + 1 / 20) / (1 / 20)⌉ : ℤ) : ℚ) * (1 / 20) := rfl
  have hdiff : histHi rows - histLo rows =
      ((⌈(histMx rows + 1 / 20) / (1 / 20)⌉ - ⌊(histMn rows - 1 / 20) / (1 / 20)⌋ : ℤ) : ℚ) * (1 / 20) := by
    rw [hlo, hhi]
    push_cast
    ring
  have hge : 2 * (1 / 20 : ℚ) ≤ histHi rows - histLo rows := by
    have h1 := histLo_le rows
    have h2 := le_histHi rows
    have h3 := histMn_le_histMx rows hne
    linarith
  have hZ2 : (2 : ℤ) ≤ ⌈(histMx rows + 1 / 20) / (1 / 20)⌉ - ⌊(histMn rows - 1 / 20) / (1 / 20)⌋ := by
    have := hge
    rw [hdiff] at this
    have h4 := (mul_le_mul_right (by norm_num : (0 : ℚ) < 1 / 20)).mp this
    exact_mod_cast h4
  have hMdiv : (histHi rows - histLo rows) / (1 / 20) =
      ((⌈(histMx rows + 1 / 20) / (1 / 20)⌉ - ⌊(histMn rows - 1 / 20) / (1 / 20)⌋ : ℤ) : ℚ) := by
    rw [hdiff]
    exact mul_div_cancel_right₀ _ (by norm_num)
  have hM : (histM rows : ℤ) =
      ⌈(histMx rows + 1 / 20) / (1 / 20)⌉ - ⌊(histMn rows - 1 / 20) / (1 / 20)⌋ := by
    unfold histM
    rw [hMdiv, Int.ceil_intCast]
    exact Int.toNat_of_nonneg (by omega)
  constructor
  · have : (histM rows : ℚ) =
        ((⌈(histMx rows + 1 / 20) / (1 / 20)⌉ - ⌊(histMn rows - 1 / 20) / (1 / 20)⌋ : ℤ) : ℚ) := by
      exact_mod_cast congrArg (fun z : ℤ => (z : ℚ)) hM
    rw [this]
    linarith [hdiff]
  · omega

theorem buildBins_range (s : ℚ) (hs : 0 < s) (m : ℕ) :
    ∀ (a : ℚ) (fuel : ℕ), m ≤ fuel →
      buildBins s (a + m * s) fuel a =
        (List.range m).map (fun (k : ℕ) => mkBin s (a + (k : ℚ) * s)) := by
  induction m with
  | zero =>
      intro a fuel _
      cases fuel with
      | zero => simp [buildBins]
      | succ f => simp [buildBins]
  | succ n ih =>
      intro a fuel hf
      cases fuel with
      | zero => omega
      | succ f =>
          have hlt : a < a + (n + 1 : ℕ) * s := by
            have : (0 : ℚ) < ((n : ℚ) + 1) * s := by positivity
            push_cast
            linarith
          have hhi : a + ((n + 1 : ℕ) : ℚ) * s = (a + s) + (n : ℚ) * s := by
            push_cast
            ring
          show (if a < a + ((n + 1 : ℕ) : ℚ) * s then
              mkBin s a :: buildBins s (a + ((n + 1 : ℕ) : ℚ) * s) f (a + s) else []) = _
          rw [if_pos hlt, hhi, ih (a + s) f (by omega)]
          rw [List.range_succ_eq_map, List.map_cons, List.map_map]
          congr 1
          · simp [mkBin]
          · apply List.map_congr_left
            intro k _
            have : a + ((Nat.succ k : ℕ) : ℚ) * s = (a + s) + (k : ℚ) * s := by
              push_cast
              ring
            simp only [Function.comp]
            rw [← this]

theorem incBin_length (bs : List HistBin) : ∀ i, (incBin bs i).length = bs.length := by
  induction bs with
  | nil => intro i; rfl
  | cons b t ih =>
      intro i
      cases i with
      | zero => rfl
      | succ n => simp [incBin, ih n]

theorem incBin_bounds (bs : List HistBin) :
    ∀ i, (incBin bs i).map (fun b => (b.lower, b.upper)) =
      bs.map (fun b => (b.lower, b.upper)) := by
  induction bs with
  | nil => intro i; rfl
  | cons b t ih =>
      intro i
      cases i with
      | zero => rfl
      | succ n => simp [incBin, ih n]

theorem incBin_sum (bs : List HistBin) :
    ∀ i, i < bs.length →
      ((incBin bs i).map (·.count)).sum = (bs.map (·.count)).sum + 1 := by
  induction bs with
  | nil => intro i h; simp at h
  | cons b t ih =>
      intro i h
      cases i with
      | zero => simp [incBin]; omega
      | succ n =>
          have hn : n < t.length := by simpa using h
          simp only [incBin, List.map_cons, List.sum_cons, ih n hn]
          omega

theorem binIdx_lt (lo hi step : ℚ) (len : ℕ) (x : ℚ) (h : 0 < len) :
    binIdx lo hi step len x < len := by
  show (max 0 (min ((len : ℤ) - 1)
      ⌊(min x (hi - 1 / 10 ^ 12) - lo) / step⌋)).toNat < len
  have h1 : (max 0 (min ((len : ℤ) - 1)
      ⌊(min x (hi - 1 / 10 ^ 12) - lo) / step⌋)) ≤ (len : ℤ) - 1 := by
    apply max_le
    · omega
    · exact min_le_left _ _
  have h2 := Int.toNat_le_toNat h1
  have h3 : ((len : ℤ) - 1).toNat = len - 1 := by omega
  omega

theorem foldCount (lo hi step : ℚ) (rows : List Row) :
    ∀ bs : List HistBin, 0 < bs.length →
      (rows.foldl (fun bs r => incBin bs (binIdx lo hi step bs.length r.ratio)) bs).length
        = bs.length ∧
      (rows.foldl (fun bs r => incBin bs (binIdx lo hi step bs.length r.ratio)) bs).map
          (fun b => (b.lower, b.upper)) = bs.map (fun b => (b.lower, b.upper)) ∧
      ((rows.foldl (fun bs r => incBin bs (binIdx lo hi step bs.length r.ratio)) bs).map
          (·.count)).sum = (bs.map (·.count)).sum + rows.length := by
  induction rows with
  | nil => intro bs _; exact ⟨rfl, rfl, by simp⟩
  | cons r t ih =>
      intro bs h
      rw [List.foldl_cons]
      have hidx : binIdx lo hi step bs.length r.ratio < bs.length :=
        binIdx_lt lo hi step bs.length r.ratio h
      have h2 : 0 < (incBin bs (binIdx lo hi step bs.length r.ratio)).length := by
        rw [incBin_length]
        exact h
      obtain ⟨hl, hb, hsum⟩ := ih (incBin bs (binIdx lo hi step bs.length r.ratio)) h2
      refine ⟨by rw [hl, incBin_length], by rw [hb, incBin_bounds], ?_⟩
      rw [hsum, incBin_sum bs _ hidx]
      simp
      omega

theorem toFixed10_exact_twentieth (z : ℤ) :
    toFixed10 ((z : ℚ) * (1 / 20)) = (z : ℚ) * (1 / 20) := by
  unfold toFixed10
  have h : (z : ℚ) * (1 / 20) * 10 ^ 10 + 1 / 2 = ((z * 500000000 : ℤ) : ℚ) + 1 / 2 := by
    push_cast
    ring
  rw [h, Int.floor_int_add]
  have h2 : ⌊(1 : ℚ) / 2⌋ = 0 := by norm_num
  rw [h2, add_zero]
  push_cast
  ring

theorem count_range_eq_one (m k0 : ℕ) (h : k0 < m) :
    (List.range m).count k0 = 1 := by
  induction m with
  | zero => omega
  | succ n ih =>
      rw [List.range_succ, List.count_append]
      by_cases hk : k0 < n
      · rw [ih hk]
        have hzero : List.count k0 [n] = 0 := by
          rw [List.count_singleton]
          have : ¬ n = k0 := by omega
          simp [this]
        omega
      · have hk2 : k0 = n := by omega
        subst hk2
        have hzero : List.count k0 (List.range k0) = 0 := by
          rw [List.count_eq_zero]
          simp
        rw [hzero, List.count_singleton]
        simp

theorem count_interval (lo x : ℚ) (m : ℕ)
    (hlo : lo ≤ x) (hhi : x < lo + (m : ℚ) * (1 / 20)) :
    (List.range m).countP
      (fun (k : ℕ) => decide (lo + (k : ℚ) * (1 / 20) ≤ x ∧
        x < lo + ((k : ℚ) + 1) * (1 / 20))) = 1 := by
  have hs : (0 : ℚ) < 1 / 20 := by norm_num
  have hnn : 0 ≤ ⌊(x - lo) / (1 / 20)⌋ := by
    apply Int.floor_nonneg.mpr
    apply div_nonneg (by linarith) (by norm_num)
  have hflt : ⌊(x - lo) / (1 / 20)⌋ < (m : ℤ) := by
    apply Int.floor_lt.mpr
    rw [div_lt_iff hs]
    push_cast
    linarith
  have hk0 : (⌊(x - lo) / (1 / 20)⌋).toNat < m := by omega
  have hiff : ∀ k : ℕ, ((lo + (k : ℚ) * (1 / 20) ≤ x ∧
      x < lo + ((k : ℚ) + 1) * (1 / 20)) ↔ k = (⌊(x - lo) / (1 / 20)⌋).toNat) := by
    intro k
    constructor
    · rintro ⟨h1, h2⟩
      have hle : (k : ℤ) ≤ ⌊(x - lo) / (1 / 20)⌋ := by
        apply Int.le_floor.mpr
        rw [le_div_iff hs]
        push_cast
        linarith
      have hlt : ⌊(x - lo) / (1 / 20)⌋ < (k : ℤ) + 1 := by
        apply Int.floor_lt.mpr
        rw [div_lt_iff hs]
        push_cast
        linarith
      omega
    · rintro rfl
      have hQ : (((⌊(x - lo) / (1 / 20)⌋).toNat : ℕ) : ℚ) =
          ((⌊(x - lo) / (1 / 20)⌋ : ℤ) : ℚ) := by
        exact_mod_cast Int.toNat_of_nonneg hnn
      have hfl : (⌊(x - lo) / (1 / 20)⌋ : ℚ) ≤ (x - lo) / (1 / 20) := Int.floor_le _
      have hfu : (x - lo) / (1 / 20) < (⌊(x - lo) / (1 / 20)⌋ : ℚ) + 1 := Int.lt_floor_add_one _
      have hmul1 : (⌊(x - lo) / (1 / 20)⌋ : ℚ) * (1 / 20) ≤ x - lo := by
        have := mul_le_mul_of_nonneg_right hfl (le_of_lt hs)
        rwa [div_mul_cancel₀ _ (ne_of_gt hs)] at this
      have hmul2 : x - lo < ((⌊(x - lo) / (1 / 20)⌋ : ℚ) + 1) * (1 / 20) := by
        have := mul_lt_mul_of_pos_right hfu hs
        rwa [div_mul_cancel₀ _ (ne_of_gt hs)] at this
      rw [hQ]
      constructor
      · linarith
      · linarith
  have hcong : (List.range m).countP
      (fun (k : ℕ) => decide (lo + (k : ℚ) * (1 / 20) ≤ x ∧
        x < lo + ((k : ℚ) + 1) * (1 / 20))) =
      (List.range m).countP (fun k => k == (⌊(x - lo) / (1 / 20)⌋).toNat) := by
    apply List.countP_congr
    intro k _
    simp only [decide_eq_true_eq, beq_iff_eq]
    exact hiff k
  rw [hcong]
  have hcnt : (List.range m).countP (fun k => k == (⌊(x - lo) / (1 / 20)⌋).toNat) =
      (List.range m).count (⌊(x - lo) / (1 / 20)⌋).toNat := rfl
  rw [hcnt]
  exact count_range_eq_one m _ hk0

theorem useRatioHistogram_eq (rows : List Row) (hne : rows ≠ []) :
    useRatioHistogram rows (1 / 20) =
      rows.foldl
        (fun bs r => incBin bs (binIdx (histLo rows) (histHi rows) (1 / 20) bs.length r.ratio))
        ((List.range (histM rows)).map
          (fun (k : ℕ) => mkBin (1 / 20) (histLo rows + (k : ℚ) * (1 / 20)))) := by
  obtain ⟨hhi_eq, _⟩ := histM_spec rows hne
  have h0 : useRatioHistogram rows (1 / 20) =
      rows.foldl
        (fun bs r => incBin bs (binIdx (histLo rows) (histHi rows) (1 / 20) bs.length r.ratio))
        (buildBins (1 / 20) (histHi rows) (histM rows + 1) (histLo rows)) := by
    unfold useRatioHistogram
    rw [if_neg (by simp [hne] : ¬ rows.isEmpty = true)]
    rfl
  rw [h0]
  congr 1
  rw [hhi_eq]
  exact buildBins_range (1 / 20) (by norm_num) (histM rows) (histLo rows)
    (histM rows + 1) (by omega)

theorem bins0_countP (rows : List Row) (hne : rows ≠ []) (x : ℚ)
    (hx1 : histMn rows ≤ x) (hx2 : x ≤ histMx rows) :
    ((List.range (histM rows)).map
        (fun (k : ℕ) => mkBin (1 / 20) (histLo rows + (k : ℚ) * (1 / 20)))).countP
      (fun b => decide (b.lower ≤ x ∧ x < b.upper)) = 1 := by
  obtain ⟨hhi_eq, hm2⟩ := histM_spec rows hne
  rw [List.countP_map]
  have hup : ∀ k : ℕ,
      (mkBin (1 / 20) (histLo rows + (k : ℚ) * (1 / 20))).upper =
        histLo rows + ((k : ℚ) + 1) * (1 / 20) := by
    intro k
    show toFixed10 (histLo rows + (k : ℚ) * (1 / 20) + 1 / 20) = _
    have harg : histLo rows + (k : ℚ) * (1 / 20) + 1 / 20 =
        ((⌊(histMn rows - 1 / 20) / (1 / 20)⌋ + (k : ℤ) + 1 : ℤ) : ℚ) * (1 / 20) := by
      have hlo : histLo rows =
          ((⌊(histMn rows - 1 / 20) / (1 / 20)⌋ : ℤ) : ℚ) * (1 / 20) := rfl
      rw [hlo]
      push_cast
      ring
    rw [harg, toFixed10_exact_twentieth, ← harg]
    ring
  have hcong : (List.range (histM rows)).countP
      ((fun b => decide (b.lower ≤ x ∧ x < b.upper)) ∘
        (fun (k : ℕ) => mkBin (1 / 20) (histLo rows + (k : ℚ) * (1 / 20)))) =
      (List.range (histM rows)).countP
        (fun (k : ℕ) => decide (histLo rows + (k : ℚ) * (1 / 20) ≤ x ∧
          x < histLo rows + ((k : ℚ) + 1) * (1 / 20))) := by
    apply List.countP_congr
    intro k _
    simp only [Function.comp_apply, decide_eq_true_eq]
    rw [hup k]
    exact Iff.rfl
  rw [hcong]
  apply count_interval
  · have h1 := histLo_le rows
    linarith
  · have h2 := le_histHi rows
    rw [hhi_eq] at h2
    linarith

/-- C5: the empty row set yields an empty bin list; on a non-empty row set,
each row's ratio is contained in exactly one bin's half-open range, and the
bin counts sum to the number of rows. -/
theorem c5_histogram (rows : List Row) :
    (rows = [] → useRatioHistogram rows (1 / 20) = []) ∧
    (rows ≠ [] →
      ((useRatioHistogram rows (1 / 20)).map (·.count)).sum = rows.length ∧
      ∀ r ∈ rows, (useRatioHistogram rows (1 / 20)).countP
          (fun b => decide (b.lower ≤ r.ratio ∧ r.ratio < b.upper)) = 1) := by
  constructor
  · intro h
    subst h
    rfl
  · intro hne
    obtain ⟨hhi_eq, hm2⟩ := histM_spec rows hne
    have hrw := useRatioHistogram_eq rows hne
    have hlen0 : ((List.range (histM rows)).map
        (fun (k : ℕ) => mkBin (1 / 20) (histLo rows + (k : ℚ) * (1 / 20)))).length =
        histM rows := by simp
    have hpos : 0 < ((List.range (histM rows)).map
        (fun (k : ℕ) => mkBin (1 / 20) (histLo rows + (k : ℚ) * (1 / 20)))).length := by
      rw [hlen0]
      omega
    obtain ⟨hl, hb, hsum⟩ :=
      foldCount (histLo rows) (histHi rows) (1 / 20) rows _ hpos
    have hsum0 : (((List.range (histM rows)).map
        (fun (k : ℕ) => mkBin (1 / 20) (histLo rows + (k : ℚ) * (1 / 20)))).map
          (·.count)).sum = 0 := by
      apply List.sum_eq_zero
      intro c hc
      obtain ⟨b, hbmem, rfl⟩ := List.mem_map.mp hc
      obtain ⟨k, _, rfl⟩ := List.mem_map.mp hbmem
      rfl
    constructor
    · rw [hrw, hsum, hsum0, zero_add]
    · intro r hr
      rw [hrw]
      have hfact : ∀ l : List HistBin,
          l.countP (fun b => decide (b.lower ≤ r.ratio ∧ r.ratio < b.upper)) =
          (l.map (fun b => (b.lower, b.upper))).countP
            (fun pr => decide (pr.1 ≤ r.ratio ∧ r.ratio < pr.2)) := by
        intro l
        rw [List.countP_map]
        rfl
      rw [hfact, hb, ← hfact]
      exact bins0_countP rows hne r.ratio
        (listMinQ_le (ratioList rows) r.ratio (List.mem_map_of_mem _ hr))
        (le_listMaxQ (ratioList rows) r.ratio (List.mem_map_of_mem _ hr))

/-- Witness for C5 on the singleton row with ratio 0.25: bins cover
[0.2, 0.25), [0.25, 0.3); the counts sum to 1 and exactly one bin contains
the ratio. -/
theorem c5_histogram_witness :
    ((useRatioHistogram [exRowA] (1 / 20)).map (·.count)).sum = [exRowA].length ∧
    ∀ r ∈ [exRowA], (useRatioHistogram [exRowA] (1 / 20)).countP
        (fun b => decide (b.lower ≤ r.ratio ∧ r.ratio < b.upper)) = 1 :=
  (c5_histogram [exRowA]).2 (by decide)
